import Mathlib

/-!
Verification of the gitops-controller reconciliation engine.

This file is a shallow embedding of the controller's core logic:

* `PatchMatchesPath` and its underlying Go `path/filepath` helpers
  (`Clean`, `Rel`), from pkg/util/util.go;
* `MarshalObject` (pkg/util/util.go) over a structural object model;
* `Object.Matches` (pkg/yaml/object.go);
* `Rule.Matches` / `Config.RuleForObject` / `PatchObject`
  (pkg/config/config.go);
* the per-identity reconcile step and its dispatch helpers
  (pkg/reconciler);
* `Repo.Push` / `Repo.Pull` (pkg/repo) over an abstract git transport;
* `File.Dump` (pkg/yaml/file.go) over an abstract file system.

Go strings are modelled as `List Char`; the external collaborators
(the structural-diff library, the JSON-patch applier, the label-selector
parser and the inflection library) are modelled as parameters bundled in
`ExtLib`, and the git transport as a `GitEnv` of call outcomes.  JSON
serialize/deserialize round-trips inside `PatchObject` are collapsed to
the identity on the structural object domain.
-/

/-- Go strings, modelled as lists of characters. -/
abbrev Str := List Char

/-- Go `strings.HasPrefix s pre` (argument order: prefix first here). -/
def goHasPrefix (pre s : Str) : Bool :=
  List.isPrefixOf pre s

/-- Split a string on the `/` separator, Go `strings.Split s "/"`.
`splitOnSlash [] = [[]]`, matching Go's `Split("", "/") = [""]`. -/
def splitOnSlash : Str → List Str
  | [] => [[]]
  | c :: rest =>
    if c = '/' then [] :: splitOnSlash rest
    else
      match splitOnSlash rest with
      | [] => [[c]]
      | s :: ss => (c :: s) :: ss

/-- Join components with the `/` separator (Go `strings.Join l "/"`). -/
def joinSlash : List Str → Str
  | [] => []
  | [s] => s
  | s :: t :: rest => s ++ '/' :: joinSlash (t :: rest)

/-- One step of Go `filepath.Clean`'s element processing: empty and `.`
elements are dropped, `..` pops the last kept element (or is kept when the
path is relative and nothing can be popped; dropped at the root when the
path is rooted), any other element is kept.  The stack holds the kept
elements in reverse order. -/
def cleanPush (rooted : Bool) (stack : List Str) (c : Str) : List Str :=
  if c = [] ∨ c = ['.'] then stack
  else if c = ['.', '.'] then
    match stack with
    | [] => if rooted then [] else [['.', '.']]
    | top :: rest => if top = ['.', '.'] then ['.', '.'] :: top :: rest else rest
  else c :: stack

/-- Go `filepath.Clean` on unix (no volume names). -/
def goClean (path : Str) : Str :=
  if path = [] then ['.']
  else
    let rooted := path.head? = some '/'
    let comps := ((splitOnSlash path).foldl (cleanPush rooted) []).reverse
    if rooted then '/' :: joinSlash comps
    else if comps = [] then ['.'] else joinSlash comps

/-- Drop the longest common prefix of two component lists, returning the two
remainders.  This mirrors the chunk-comparison loop inside Go's
`filepath.Rel`, which positions both paths at their first differing
elements. -/
def dropCommon : List Str → List Str → List Str × List Str
  | a :: as, b :: bs =>
    if a = b then dropCommon as bs else (a :: as, b :: bs)
  | as, bs => (as, bs)

/-- A remainder chunk list of `[""]` denotes an empty remaining string in
Go's `Rel` (the position is at the end of the path). -/
def normRem (l : List Str) : List Str :=
  if l = [[]] then [] else l

/-- The chunk list `Rel` iterates over: the empty string has no chunks,
otherwise the `/`-separated chunks (a rooted path contributes a leading
empty chunk). -/
def relComps (s : Str) : List Str :=
  if s = [] then [] else splitOnSlash s

/-- Go `filepath.Rel basepath targpath` on unix.  `none` models the error
return.  Follows the stdlib: clean both paths, equal paths relate by `.`,
a rooted/relative mismatch errors, otherwise drop the common chunk prefix;
a remaining `..` in base errors, remaining base chunks each contribute a
`..`, and the remaining target chunks are appended. -/
def goRel (basepath targpath : Str) : Option Str :=
  let base0 := goClean basepath
  let targ := goClean targpath
  if targ = base0 then some ['.']
  else
    let base := if base0 = ['.'] then [] else base0
    if (decide (base.head? = some '/')) ≠ (decide (targ.head? = some '/')) then none
    else
      let pr := dropCommon (relComps base) (relComps targ)
      let brem := normRem pr.1
      let trem := normRem pr.2
      if brem.head? = some ['.', '.'] then none
      else if brem = [] then some (joinSlash trem)
      else
        let dots := joinSlash (brem.map (fun _ => ['.', '.']))
        if trem = [] then some dots
        else some (dots ++ '/' :: joinSlash trem)

/-- `util.PatchMatchesPath` (pkg/util/util.go): a patch operation path
matches a filter path when the two are equal, or when
`filepath.Rel(filterPath, patchPath)` does not start with `../`.
`none` models the error return from `Rel`. -/
def PatchMatchesPath (patchPath filterPath : Str) : Option Bool :=
  if patchPath = filterPath then some true
  else
    match goRel filterPath patchPath with
    | none => none
    | some rel => if goHasPrefix ['.', '.', '/'] rel then some false else some true

example : goClean "/metadata/labels".toList = "/metadata/labels".toList := by decide
example : goRel "/metadata".toList "/metadata/labels/foo".toList =
    some "labels/foo".toList := by decide
example : goRel "/metadata/labels".toList "/metadata".toList = some "..".toList := by decide
example : goRel "/metadata/labels/a".toList "/metadata".toList =
    some "../..".toList := by decide
example : PatchMatchesPath "/metadata/labels/foo".toList "/metadata".toList = some true := by decide
example : PatchMatchesPath "/metadata".toList "/metadata/labels".toList = some true := by decide
example : PatchMatchesPath "/metadata".toList "/metadata/labels/a".toList = some false := by decide
example : PatchMatchesPath "/spec/x".toList "/metadata".toList = some false := by decide

/-! ## Object model (unstructured manifests) -/

/-- Object metadata, the typed fields of `metav1.Object` the controller
touches. -/
structure ObjMeta where
  name : Str
  nspace : Str
  labels : List (Str × Str)
  annotations : List (Str × Str)
  resourceVersion : Str
  uid : Str
  selfLink : Str
  generation : Int
  creationTimestamp : Str
deriving DecidableEq, Repr

/-- A structural (unstructured) object: identity, metadata, an optional
status sub-tree and an opaque remaining payload. -/
structure K8sObject where
  kind : Str
  group : Str
  version : Str
  meta : ObjMeta
  status : Option Str
  payload : Str
deriving DecidableEq, Repr

/-- `util.MarshalObject` (pkg/util/util.go): before encoding, the
serializer clears resource version, creation timestamp, self link, uid and
generation on the object's metadata.  Nothing else is touched; the result
models the document written to the manifest. -/
def MarshalObject (o : K8sObject) : K8sObject :=
  { o with meta := { o.meta with
      resourceVersion := []
      creationTimestamp := []
      selfLink := []
      uid := []
      generation := 0 } }

/-- `yaml.Object.Matches` (pkg/yaml/object.go): compares name, then
namespace, then kind.  Group and version are not consulted. -/
def Object.Matches (actual expected : K8sObject) : Bool :=
  if actual.meta.name ≠ expected.meta.name then false
  else if actual.meta.nspace ≠ expected.meta.nspace then false
  else if actual.kind ≠ expected.kind then false
  else true

/-! ## Rule engine (pkg/config/config.go) -/

/-- One operation of a structural diff patch (`jsonpatch.Operation`). -/
structure PatchOp where
  op : Str
  path : Str
  value : Str
deriving DecidableEq, Repr

/-- External collaborators of the rule engine, passed in as parameters:
the structural-diff library (`admission.PatchResponse`), the JSON-patch
applier (`evanphx/json-patch`, with the serialize/apply/decode pipeline
collapsed to the object domain), the label-selector parser
(`k8s.io labels.Parse`, `none` modelling a parse error) and the
inflection library's `Singular`. -/
structure ExtLib where
  diff : K8sObject → K8sObject → List PatchOp
  applyOps : List PatchOp → K8sObject → Option K8sObject
  parseSel : Str → Option (List (Str × Str) → Bool)
  singular : Str → Str

/-- `util.Contains` (pkg/util/util.go): true when the key is in the list,
and also when the list is empty (empty list acts as a wildcard). -/
def Contains (list : List Str) (key : Str) : Bool :=
  if list.contains key then true else list.isEmpty

/-- Go `strings.ToLower` (ASCII suffices for resource kind names). -/
def strToLower (s : Str) : Str := s.map Char.toLower

/-- The `syncTo: kubernetes` direction string. -/
def syncKubernetes : Str := "kubernetes".toList

/-- The `syncTo: git` direction string. -/
def syncGit : Str := "git".toList

/-- A sync rule (pkg/config/config.go `Rule`). -/
structure Rule where
  apiGroups : List Str
  resources : List Str
  labels : Str
  filters : List Str
  syncTo : Str
deriving DecidableEq, Repr

/-- `Rule.NormalizedResources`: each resource name singularized then
lowercased. -/
def Rule.NormalizedResources (ext : ExtLib) (r : Rule) : List Str :=
  r.resources.map (fun resource => strToLower (ext.singular resource))

/-- The inner loop of `Rule.Matches`'s filter check: scan the patch
operations for the first one matching the filter, stopping early on a
match (`break`) and aborting on a `PatchMatchesPath` error. -/
def anyPatchMatches (filter : Str) : List PatchOp → Except Unit Bool
  | [] => .ok false
  | p :: rest =>
    match PatchMatchesPath p.path filter with
    | none => .error ()
    | some true => .ok true
    | some false => anyPatchMatches filter rest

/-- The outer loop of `Rule.Matches`'s filter check: every filter is
scanned in order (a previous match does not stop the loop), `matches`
accumulates whether any (filter, operation) pair matched, and any
`PatchMatchesPath` error aborts. -/
def filtersLoop (patches : List PatchOp) : List Str → Bool → Except Unit Bool
  | [], m => .ok m
  | f :: rest, m =>
    match anyPatchMatches f patches with
    | .error e => .error e
    | .ok r => filtersLoop patches rest (m || r)

/-- The full filter check of `Rule.Matches`: `matches` starts out true
exactly when the filter list is empty, then the loops above run. -/
def filterVerdict (filters : List Str) (patches : List PatchOp) : Except Unit Bool :=
  filtersLoop patches filters filters.isEmpty

/-- `Rule.Matches` (pkg/config/config.go): resource and group checks on
the present projection (cluster side preferred), early `true` in
`typeOnly` mode, then the filter check (only when both projections are
present, over the diff of (original = git, current = cluster)) and the
label check (consulting the git side under `syncTo: kubernetes`, the
cluster side under `syncTo: git`; an absent consulted side fails the
rule, an unparsable selector is an error).  Both projections absent
models the nil dereference as an error; callers never pass that. -/
def Rule.Matches (ext : ExtLib) (r : Rule) (k8sState gitState : Option K8sObject)
    (typeOnly : Bool) : Except Unit Bool :=
  match (match k8sState with | some o => some o | none => gitState) with
  | none => .error ()
  | some obj =>
    if ¬ Contains (r.NormalizedResources ext) (strToLower obj.kind) then .ok false
    else if ¬ Contains r.apiGroups obj.group then .ok false
    else if typeOnly then .ok true
    else
      let original := gitState
      let current := k8sState
      let afterFilter : Except Unit Bool :=
        match original, current with
        | some og, some cur =>
          match filterVerdict r.filters (ext.diff og cur) with
          | .error e => .error e
          | .ok m => .ok m
        | _, _ => .ok true
      match afterFilter with
      | .error e => .error e
      | .ok false => .ok false
      | .ok true =>
        if r.labels ≠ [] then
          match ext.parseSel r.labels with
          | none => .error ()
          | some sel =>
            let consulted : Option K8sObject :=
              if r.syncTo = syncKubernetes then gitState
              else if r.syncTo = syncGit then k8sState
              else some obj
            match consulted with
            | none => .ok false
            | some o2 => if sel o2.meta.labels then .ok true else .ok false
        else .ok true

/-- Controller configuration: the ordered rule list. -/
structure Config where
  rules : List Rule
deriving DecidableEq, Repr

/-- `Config.RuleForObject` (pkg/config/config.go): try the rules in
order; a `Matches` error is returned immediately, the first matching rule
is returned, no match yields `none`. -/
def Config.RuleForObject (ext : ExtLib) (c : Config) (k8sState gitState : Option K8sObject)
    (typeOnly : Bool) : Except Unit (Option Rule) :=
  go c.rules
where
  go : List Rule → Except Unit (Option Rule)
    | [] => .ok none
    | r :: rest =>
      match r.Matches ext k8sState gitState typeOnly with
      | .error e => .error e
      | .ok true => .ok (some r)
      | .ok false => go rest

/-- The per-operation filter loop of `PatchObject`: an operation is kept
when the filter list is empty or some filter matches its path; unlike the
`Rule.Matches` loop there is no `break`, so every filter is consulted and
a `PatchMatchesPath` error on any of them aborts. -/
def opMatched (filters : List Str) (p : PatchOp) : Except Unit Bool :=
  go filters filters.isEmpty
where
  go : List Str → Bool → Except Unit Bool
    | [], m => .ok m
    | f :: rest, m =>
      match PatchMatchesPath p.path f with
      | none => .error ()
      | some mt => go rest (m || mt)

/-- Keep exactly the operations `opMatched` accepts, in order. -/
def keepOps (filters : List Str) : List PatchOp → Except Unit (List PatchOp)
  | [] => .ok []
  | p :: rest =>
    match opMatched filters p with
    | .error e => .error e
    | .ok true =>
      match keepOps filters rest with
      | .error e => .error e
      | .ok ps => .ok (p :: ps)
    | .ok false => keepOps filters rest

/-- `PatchObject` (pkg/config/config.go): diff `(original, current)`,
keep the operations passing the rule's filters, apply them to `original`
(the JSON round-trip is collapsed), then overwrite the result's resource
version with `original`'s resource version (the code reads it from the
`original` argument). -/
def PatchObject (ext : ExtLib) (original current : K8sObject) (r : Rule) :
    Except Unit K8sObject :=
  match keepOps r.filters (ext.diff original current) with
  | .error e => .error e
  | .ok kept =>
    match ext.applyOps kept original with
    | none => .error ()
    | some final =>
      .ok { final with meta := { final.meta with
              resourceVersion := original.meta.resourceVersion } }

/-! ## Reconciler (pkg/reconciler) -/

/-- The calls a reconcile step can make at the repository / cluster
boundary.  `removeResource` and `addResource` are the repository
mutations (each commits as part of its work), `push` is `Repo.Push`,
and the `cluster*` actions are control-plane writes. -/
inductive SyncAction
  | removeResource
  | addResource
  | push
  | clusterDelete
  | clusterCreate
  | clusterUpdate
deriving DecidableEq, Repr

/-- Result of one reconcile step: whether it returned without error, and
the boundary calls it made, in order. -/
structure StepRes where
  ok : Bool
  actions : List SyncAction
deriving DecidableEq, Repr

/-- `Reconciler.SyncObjectToGit`: cluster side absent removes the repo
object and pushes; otherwise the object written is the filtered patch of
`(original = git, current = cluster)` when the repo side exists (a
`PatchObject` error aborts), then it is upserted and pushed. -/
def SyncObjectToGit (ext : ExtLib) (rule : Rule)
    (k8sState gitState : Option K8sObject) : StepRes :=
  match k8sState with
  | none => ⟨true, [.removeResource, .push]⟩
  | some k =>
    match gitState with
    | some g =>
      match PatchObject ext g k rule with
      | .error _ => ⟨false, []⟩
      | .ok _ => ⟨true, [.addResource, .push]⟩
    | none => ⟨true, [.addResource, .push]⟩

/-- `Reconciler.SyncObjectToKubernetes`: repo side absent deletes from
the cluster; cluster side absent re-creates from git; both present
updates the cluster with the filtered patch of
`(original = cluster, current = git)`. -/
def SyncObjectToKubernetes (ext : ExtLib) (rule : Rule)
    (k8sState gitState : Option K8sObject) : StepRes :=
  match k8sState, gitState with
  | none, none => ⟨true, []⟩
  | some _, none => ⟨true, [.clusterDelete]⟩
  | none, some _ => ⟨true, [.clusterCreate]⟩
  | some k, some g =>
    match PatchObject ext k g rule with
    | .error _ => ⟨false, []⟩
    | .ok _ => ⟨true, [.clusterUpdate]⟩

/-- One reconcile step (`Reconciler.ReconcilerForType`), starting from
the two fetched projections: both absent terminates; a rule is selected
(full matching); no rule terminates; with both sides present an empty
diff patch terminates before dispatch; otherwise dispatch on the rule's
direction. -/
def ReconcileStep (ext : ExtLib) (cfg : Config)
    (k8sState gitState : Option K8sObject) : StepRes :=
  match k8sState, gitState with
  | none, none => ⟨true, []⟩
  | _, _ =>
    match cfg.RuleForObject ext k8sState gitState false with
    | .error _ => ⟨false, []⟩
    | .ok none => ⟨true, []⟩
    | .ok (some rule) =>
      let emptyPatch :=
        match k8sState, gitState with
        | some k, some g => (ext.diff k g).isEmpty
        | _, _ => false
      if emptyPatch then ⟨true, []⟩
      else if rule.syncTo = syncGit then
        SyncObjectToGit ext rule k8sState gitState
      else
        SyncObjectToKubernetes ext rule k8sState gitState

/-! ## Repository (pkg/repo/repo.go) -/

/-- Transport-level operations `Repo.Push` / `Repo.Pull` perform. -/
inductive GitOp
  | push
  | fetch
  | reset (hash : Str)
deriving DecidableEq, Repr

/-- Outcome of the underlying `git push` call. -/
inductive PushOutcome
  | ok
  | upToDate
  | nonFastForward
  | fail
deriving DecidableEq, Repr

/-- Outcome of the underlying `git fetch` call. -/
inductive FetchOutcome
  | ok
  | upToDate
  | fail
deriving DecidableEq, Repr

/-- The error value a `Repo` method returns, when it returns one. -/
inductive RepoErr
  | nonFastForward
  | other
deriving DecidableEq, Repr

/-- The remote's behaviour during one `Push`/`Pull`, treated as an
environment: push outcome, fetch outcome, the remote-tracking reference
lookup (`none` = lookup error) and whether the hard reset succeeds. -/
structure GitEnv where
  pushOutcome : PushOutcome
  fetchOutcome : FetchOutcome
  remoteRef : Option Str
  resetOk : Bool

/-- `Repo.Pull` (pkg/repo/repo.go): an empty repo URL returns
immediately; otherwise fetch the tracked branch (`AlreadyUpToDate`
returns success without resetting; note a failed fetch is not returned —
the code overwrites the error with the reference lookup), then hard-reset
the worktree to the remote-tracking reference. -/
def Repo.Pull (repoDir : Str) (env : GitEnv) : List GitOp × Option RepoErr :=
  if repoDir = [] then ([], none)
  else
    if env.fetchOutcome = .upToDate then ([.fetch], none)
    else
      match env.remoteRef with
      | none => ([.fetch], some .other)
      | some h =>
        if env.resetOk then ([.fetch, .reset h], none)
        else ([.fetch, .reset h], some .other)

/-- `Repo.Push` (pkg/repo/repo.go): an empty repo URL returns
immediately; success and `AlreadyUpToDate` are success; an error other
than `NonFastForward` is returned as-is; on `NonFastForward` the repo is
`Pull`ed (a pull error is returned instead) and `ErrNonFastForwardUpdate`
is returned to the caller. -/
def Repo.Push (repoDir : Str) (env : GitEnv) : List GitOp × Option RepoErr :=
  if repoDir = [] then ([], none)
  else
    match env.pushOutcome with
    | .ok => ([.push], none)
    | .upToDate => ([.push], none)
    | .fail => ([.push], some .other)
    | .nonFastForward =>
      match Repo.Pull repoDir env with
      | (pullOps, some _) => (.push :: pullOps, some .other)
      | (pullOps, none) => (.push :: pullOps, some .nonFastForward)

/-! ## Manifest files (pkg/yaml/file.go) -/

/-- The workspace file tree, path to contents. -/
abbrev Fs := List (Str × Str)

/-- Look a path up in the file tree. -/
def fsLookup (fs : Fs) (p : Str) : Option Str :=
  match fs with
  | [] => none
  | (q, v) :: rest => if q = p then some v else fsLookup rest p

/-- Remove a path from the file tree. -/
def fsRemove (fs : Fs) (p : Str) : Fs :=
  match fs with
  | [] => []
  | (q, v) :: rest => if q = p then fsRemove rest p else (q, v) :: fsRemove rest p

/-- Write a path in the file tree (replacing any existing entry). -/
def fsWrite (fs : Fs) (p : Str) (v : Str) : Fs :=
  (p, v) :: fsRemove fs p

/-- The multi-document separator written between documents. -/
def docSep : Str := "---\n".toList

/-- A manifest file: its path and its ordered object sequence. -/
structure YFile where
  path : Str
  objects : List K8sObject

/-- The document-writing loop of `File.Dump`: the separator is written
before every document except the first, and each object is marshalled
through `MarshalObject`.  `encode` is the YAML serializer for one
document. -/
def renderLoop (encode : K8sObject → Str) (first : Bool) :
    List K8sObject → Str
  | [] => []
  | o :: rest =>
    (if first then [] else docSep) ++ encode (MarshalObject o) ++
      renderLoop encode false rest

/-- `File.Dump` (pkg/yaml/file.go): an empty object sequence deletes the
file when it exists and is a no-op when it does not; a non-empty sequence
writes all documents with the separator between them. -/
def File.Dump (encode : K8sObject → Str) (fs : Fs) (f : YFile) : Fs :=
  if f.objects.isEmpty then
    match fsLookup fs f.path with
    | none => fs
    | some _ => fsRemove fs f.path
  else
    fsWrite fs f.path (renderLoop encode true f.objects)

deriving instance DecidableEq for Except

/-! ## Helpers for stating the claims, and concrete fixtures -/

/-- A well-formed JSON-pointer component: nonempty, not a `.`/`..` dot
element, and free of the separator. -/
def GoodComp (c : Str) : Prop :=
  c ≠ [] ∧ c ≠ ['.'] ∧ c ≠ ['.', '.'] ∧ '/' ∉ c

instance (c : Str) : Decidable (GoodComp c) := by
  unfold GoodComp; infer_instance

/-- The JSON-pointer path with the given components. -/
def ptrPath (p : List Str) : Str :=
  '/' :: joinSlash p

/-- Intercalate a separator between strings. -/
def strIntercalate (sep : Str) : List Str → Str
  | [] => []
  | [d] => d
  | d :: e :: rest => d ++ sep ++ strIntercalate sep (e :: rest)

/-- Look a key up in an association list of strings (annotations,
labels). -/
def lookupStr (m : List (Str × Str)) (key : Str) : Option Str :=
  match m with
  | [] => none
  | (k, v) :: rest => if k = key then some v else lookupStr rest key

/-- The `kubectl.kubernetes.io/last-applied-configuration` annotation
key. -/
def lastAppliedKey : Str :=
  "kubectl.kubernetes.io/last-applied-configuration".toList

/-- A concrete label-selector function for witnesses: matches maps
containing the `a=label` pair. -/
def selW (ls : List (Str × Str)) : Bool :=
  decide (("a".toList, "label".toList) ∈ ls)

/-- A concrete external-collaborator bundle for witnesses: the diff is
empty, patch application is the identity, the selector string `bad(sel`
fails to parse and every other selector parses to `selW`, and
singularization is the identity. -/
def extW : ExtLib where
  diff := fun _ _ => []
  applyOps := fun _ o => some o
  parseSel := fun s => if s = "bad(sel".toList then none else some selW
  singular := fun s => s

/-- A plain Deployment object used as a concrete reconcile input. -/
def objW : K8sObject where
  kind := "Deployment".toList
  group := "extensions".toList
  version := "v1beta1".toList
  meta := {
    name := "test".toList
    nspace := "hello".toList
    labels := [("a".toList, "label".toList)]
    annotations := []
    resourceVersion := []
    uid := []
    selfLink := []
    generation := 0
    creationTimestamp := [] }
  status := none
  payload := []

/-- The object of the repository's own `TestMarshalObject`: a Deployment
carrying a status sub-tree, the last-applied-configuration annotation and
server-populated metadata. -/
def c2Object : K8sObject where
  kind := "Deployment".toList
  group := "extensions".toList
  version := "v1beta1".toList
  meta := {
    name := "name".toList
    nspace := "default".toList
    labels := []
    annotations := [(lastAppliedKey, "hello world".toList),
                    ("my".toList, "annotation".toList)]
    resourceVersion := "12345".toList
    uid := "abc-uid".toList
    selfLink := "/apis/self".toList
    generation := 4
    creationTimestamp := "2019-01-01".toList }
  status := some "ok".toList
  payload := []

/-- A Deployment in group `extensions`. -/
def c3Extensions : K8sObject :=
  { objW with group := "extensions".toList }

/-- The same Deployment, but in group `apps`. -/
def c3Apps : K8sObject :=
  { objW with group := "apps".toList }

/-- A rule whose label selector does not parse. -/
def c4BadRule : Rule where
  apiGroups := []
  resources := []
  labels := "bad(sel".toList
  filters := []
  syncTo := syncKubernetes

/-- A catch-all rule with no selector. -/
def c4GoodRule : Rule where
  apiGroups := []
  resources := []
  labels := []
  filters := []
  syncTo := syncGit

/-- A configuration listing the broken rule before the catch-all. -/
def c4Config : Config :=
  ⟨[c4BadRule, c4GoodRule]⟩

/-- An original object with resource version 1. -/
def c5Original : K8sObject :=
  { objW with meta := { objW.meta with resourceVersion := "1".toList } }

/-- A current object with resource version 2. -/
def c5Current : K8sObject :=
  { objW with meta := { objW.meta with resourceVersion := "2".toList } }

/-- A rule consulting the git side's labels (`syncTo: kubernetes`) with
the `a=label` selector. -/
def c7Rule : Rule where
  apiGroups := []
  resources := []
  labels := "a=label".toList
  filters := []
  syncTo := syncKubernetes

/-- A transport environment whose push is rejected as non-fast-forward
and whose pull succeeds. -/
def c8Env : GitEnv where
  pushOutcome := .nonFastForward
  fetchOutcome := .ok
  remoteRef := some "abc123".toList
  resetOk := true

/-! ## Theorems -/

/-- Claim C3, counterexample: two objects that differ only in group are
reported as matching by `Object.Matches`, so group does not separate
identities, contrary to the claim. -/
theorem C3_counterexample :
    Object.Matches c3Extensions c3Apps = true ∧
    c3Extensions.group ≠ c3Apps.group ∧
    c3Extensions.kind = c3Apps.kind ∧
    c3Extensions.meta.nspace = c3Apps.meta.nspace ∧
    c3Extensions.meta.name = c3Apps.meta.name := by
  refine ⟨rfl, by decide, rfl, rfl, rfl⟩

/-- Claim C3, amended: `Object.Matches` reports a match iff kind,
namespace and name are all equal; both group and version are ignored. -/
theorem C3_theorem (a b : K8sObject) :
    Object.Matches a b = true ↔
      (a.kind = b.kind ∧ a.meta.nspace = b.meta.nspace ∧ a.meta.name = b.meta.name) := by
  unfold Object.Matches
  split_ifs with h1 h2 h3 <;> simp_all

/-- Claim C2: `MarshalObject` clears resource version, uid, self link,
generation and creation timestamp, but on the repository's own
`TestMarshalObject` input it leaves the status sub-tree in place and
keeps the last-applied-configuration annotation, contradicting that test
and the claim. -/
theorem C2_theorem :
    (MarshalObject c2Object).meta.resourceVersion = [] ∧
    (MarshalObject c2Object).meta.uid = [] ∧
    (MarshalObject c2Object).meta.selfLink = [] ∧
    (MarshalObject c2Object).meta.generation = 0 ∧
    (MarshalObject c2Object).meta.creationTimestamp = [] ∧
    (MarshalObject c2Object).status = some "ok".toList ∧
    lookupStr (MarshalObject c2Object).meta.annotations lastAppliedKey =
      some "hello world".toList := by
  refine ⟨rfl, rfl, rfl, rfl, rfl, rfl, ?_⟩
  simp [MarshalObject, c2Object, lookupStr]

/-- Claim C5, counterexample: with an empty diff and identity patch
application, `PatchObject` returns the original object, whose resource
version (1) differs from `current`'s (2) — the result's resource version
is not restored from `current`. -/
theorem C5_counterexample :
    PatchObject extW c5Original c5Current c4GoodRule = .ok c5Original ∧
    c5Original.meta.resourceVersion ≠ c5Current.meta.resourceVersion := by
  refine ⟨rfl, by decide⟩

/-- Claim C5, amended: whenever `PatchObject` succeeds, the result's
resource version equals the resource version of `original` (the object
the filtered patch is applied to), not of `current`. -/
theorem C5_theorem (ext : ExtLib) (original current : K8sObject) (r : Rule)
    (res : K8sObject)
    (h : PatchObject ext original current r = .ok res) :
    res.meta.resourceVersion = original.meta.resourceVersion := by
  unfold PatchObject at h
  rcases hk : keepOps r.filters (ext.diff original current) with e | kept
  · simp [hk] at h
  · simp only [hk] at h
    rcases ha : ext.applyOps kept original with _ | final
    · simp [ha] at h
    · simp only [ha] at h
      injection h with h2
      rw [← h2]

/-- Claim C5, witness for the amended theorem at a concrete input. -/
theorem C5_witness :
    c5Original.meta.resourceVersion = c5Original.meta.resourceVersion :=
  C5_theorem extW c5Original c5Current c4GoodRule c5Original rfl

/-- Claim C4, counterexample: the catch-all second rule matches the
object on its own, but `RuleForObject` on the two-rule configuration
returns the selector-parse error of the first rule instead of continuing
to the second. -/
theorem C4_counterexample :
    Rule.Matches extW c4GoodRule (some objW) none false = .ok true ∧
    Config.RuleForObject extW c4Config (some objW) none false = .error () := by
  refine ⟨rfl, rfl⟩

/-- Claim C4, amended: a rule whose `Matches` fails (selector parse
failure) aborts rule selection — `RuleForObject` returns the error
immediately and the subsequent rules are not evaluated. -/
theorem C4_theorem (ext : ExtLib) (r : Rule) (rest : List Rule)
    (k8s git : Option K8sObject) (tOnly : Bool)
    (h : r.Matches ext k8s git tOnly = .error ()) :
    Config.RuleForObject ext ⟨r :: rest⟩ k8s git tOnly = .error () := by
  simp [Config.RuleForObject, Config.RuleForObject.go, h]

/-- Claim C4, witness for the amended theorem at a concrete input. -/
theorem C4_witness :
    Config.RuleForObject extW ⟨[c4BadRule]⟩ (some objW) none false = .error () :=
  C4_theorem extW c4BadRule [] (some objW) none false rfl

/-- Claim C10: with an empty repository URL (local init mode), `Push`
and `Pull` return success immediately, performing no transport operation
at all, whatever the remote environment would have answered. -/
theorem C10_theorem (env : GitEnv) :
    Repo.Push [] env = ([], none) ∧ Repo.Pull [] env = ([], none) := by
  refine ⟨rfl, rfl⟩

/-- Claim C6: when both projections are present and the structural diff
between the cluster object and the repo object is empty, the reconcile
step returns success having performed no repository mutation (hence no
commit), no push, and no cluster write — provided rule selection itself
does not error. -/
theorem C6_theorem (ext : ExtLib) (cfg : Config) (k g : K8sObject)
    (hdiff : ext.diff k g = [])
    (hsel : cfg.RuleForObject ext (some k) (some g) false ≠ .error ()) :
    ReconcileStep ext cfg (some k) (some g) = ⟨true, []⟩ := by
  unfold ReconcileStep
  rcases hr : cfg.RuleForObject ext (some k) (some g) false with e | r
  · cases e
    exact absurd hr hsel
  · rcases r with _ | rule
    · simp [hr]
    · simp [hr, hdiff]

/-- Claim C6, witness at a concrete input. -/
theorem C6_witness :
    ReconcileStep extW ⟨[]⟩ (some objW) (some objW) = ⟨true, []⟩ :=
  C6_theorem extW ⟨[]⟩ objW objW rfl (by decide)

/-- Claim C7: with a non-empty, parsable label selector, the full
matcher fails whenever the consulted side is absent (the repository
projection under `syncTo: kubernetes`, the cluster projection under
`syncTo: git`), and with both sides present and the type and filter
checks passing, its verdict is the selector applied to the repository
projection's labels under `syncTo: kubernetes` and to the cluster
projection's labels otherwise. -/
theorem C7_theorem (ext : ExtLib) (r : Rule) (k8s git : Option K8sObject)
    (f : List (Str × Str) → Bool)
    (hl : r.labels ≠ []) (hp : ext.parseSel r.labels = some f) :
    (r.syncTo = syncKubernetes → git = none → ∀ k, k8s = some k →
        r.Matches ext k8s git false = .ok false) ∧
    (r.syncTo = syncGit → k8s = none → ∀ g, git = some g →
        r.Matches ext k8s git false = .ok false) ∧
    (∀ k g, k8s = some k → git = some g →
        Contains (r.NormalizedResources ext) (strToLower k.kind) = true →
        Contains r.apiGroups k.group = true →
        filterVerdict r.filters (ext.diff g k) = .ok true →
        r.Matches ext k8s git false =
          .ok (f (if r.syncTo = syncKubernetes then g.meta.labels
                  else k.meta.labels))) := by
  refine ⟨?_, ?_, ?_⟩
  · rintro hsync rfl k rfl
    by_cases h1 : Contains (r.NormalizedResources ext) (strToLower k.kind) = true
    · by_cases h2 : Contains r.apiGroups k.group = true
      · simp [Rule.Matches, h1, h2, hl, hp, hsync]
      · simp [Rule.Matches, h1, h2]
    · simp [Rule.Matches, h1]
  · rintro hsync rfl g rfl
    by_cases h1 : Contains (r.NormalizedResources ext) (strToLower g.kind) = true
    · by_cases h2 : Contains r.apiGroups g.group = true
      · have hgk : syncGit ≠ syncKubernetes := by decide
        simp [Rule.Matches, h1, h2, hl, hp, hsync, hgk]
      · simp [Rule.Matches, h1, h2]
    · simp [Rule.Matches, h1]
  · rintro k g rfl rfl h1 h2 hfv
    by_cases hs1 : r.syncTo = syncKubernetes
    · cases hb : f g.meta.labels <;>
        simp [Rule.Matches, h1, h2, hl, hp, hfv, hs1, hb]
    · have hgk : syncGit ≠ syncKubernetes := by decide
      by_cases hs2 : r.syncTo = syncGit
      · cases hb : f k.meta.labels <;>
          simp [Rule.Matches, h1, h2, hl, hp, hfv, hs1, hs2, hb, hgk]
      · cases hb : f k.meta.labels <;>
          simp [Rule.Matches, h1, h2, hl, hp, hfv, hs1, hs2, hb]

/-- Claim C7, witness: the consulted repository projection is absent
under `syncTo: kubernetes`, so the matcher returns no-match. -/
theorem C7_witness :
    Rule.Matches extW c7Rule (some objW) none false = .ok false :=
  (C7_theorem extW c7Rule (some objW) none selW (by decide) rfl).1 rfl rfl objW rfl

/-- `Repo.Pull` never pushes: its transport trace contains fetch and
reset operations only. -/
theorem pullMakesNoPush (repoDir : Str) (env : GitEnv) :
    GitOp.push ∉ (Repo.Pull repoDir env).1 := by
  unfold Repo.Pull
  cases h : env.remoteRef <;> simp only [h] <;> split_ifs <;> simp

/-- Claim C8: a push rejected as non-fast-forward first pulls (fetch
plus hard reset; no push occurs during the pull, so the rejected change
is not re-applied) and then surfaces `ErrNonFastForwardUpdate` to the
caller (provided the pull itself succeeds); a push that succeeds or is
already up to date returns success after the single push call. -/
theorem C8_theorem (repoDir : Str) (env : GitEnv) (h : repoDir ≠ []) :
    (env.pushOutcome = .nonFastForward → (Repo.Pull repoDir env).2 = none →
        Repo.Push repoDir env =
          (.push :: (Repo.Pull repoDir env).1, some .nonFastForward) ∧
        GitOp.push ∉ (Repo.Pull repoDir env).1) ∧
    ((env.pushOutcome = .ok ∨ env.pushOutcome = .upToDate) →
        Repo.Push repoDir env = ([.push], none)) := by
  constructor
  · intro hnf hpull
    refine ⟨?_, pullMakesNoPush repoDir env⟩
    unfold Repo.Push
    rw [if_neg h, hnf]
    rcases hP : Repo.Pull repoDir env with ⟨ops, err⟩
    rw [hP] at hpull
    dsimp only at hpull
    subst hpull
    simp
  · intro hok
    unfold Repo.Push
    rcases hok with hok | hok <;> rw [if_neg h, hok]

/-- Claim C8, witness at a concrete environment. -/
theorem C8_witness :
    Repo.Push "url".toList c8Env =
      (.push :: (Repo.Pull "url".toList c8Env).1, some .nonFastForward) :=
  ((( C8_theorem "url".toList c8Env (by decide)).1) rfl rfl).1

/-- Looking up a removed path yields nothing. -/
theorem fsLookup_fsRemove_self (fs : Fs) (p : Str) :
    fsLookup (fsRemove fs p) p = none := by
  induction fs with
  | nil => rfl
  | cons kv rest ih =>
    obtain ⟨q, v⟩ := kv
    by_cases hq : q = p
    · simpa [fsRemove, hq] using ih
    · simp [fsRemove, fsLookup, hq, ih]

/-- Removing a path leaves every other path's contents unchanged. -/
theorem fsLookup_fsRemove_other (fs : Fs) (p q : Str) (h : q ≠ p) :
    fsLookup (fsRemove fs p) q = fsLookup fs q := by
  induction fs with
  | nil => rfl
  | cons kv rest ih =>
    obtain ⟨a, v⟩ := kv
    by_cases ha : a = p
    · subst ha
      simp [fsRemove, fsLookup, Ne.symm h, ih]
    · simp [fsRemove, fsLookup, ha, ih]

/-- After the first document, every document is preceded by exactly one
separator. -/
theorem renderLoop_false_eq (encode : K8sObject → Str) (os : List K8sObject) :
    renderLoop encode false os =
      (os.map (fun o => docSep ++ encode (MarshalObject o))).flatten := by
  induction os with
  | nil => rfl
  | cons o rest ih => simp [renderLoop, ih]

/-- Unfolding `strIntercalate` over a leading document. -/
theorem strIntercalate_cons_eq (d : Str) (ds : List Str) :
    strIntercalate docSep (d :: ds) =
      d ++ (ds.map (fun x => docSep ++ x)).flatten := by
  induction ds generalizing d with
  | nil => simp [strIntercalate]
  | cons e rest ih => simp [strIntercalate, ih e]

/-- The document-writing loop of `Dump` produces exactly the documents
interspersed with single separators, with no separator before the first
document. -/
theorem renderLoop_eq_intercalate (encode : K8sObject → Str)
    (o : K8sObject) (os : List K8sObject) :
    renderLoop encode true (o :: os) =
      strIntercalate docSep
        ((o :: os).map (fun x => encode (MarshalObject x))) := by
  simp only [renderLoop, renderLoop_false_eq, List.map_cons,
    strIntercalate_cons_eq, List.map_map]
  simp [Function.comp_def]

/-- Claim C9: `Dump` of an empty sequence deletes an existing file
(leaving all other paths intact) and is a no-op when the file does not
exist; `Dump` of a non-empty sequence writes the documents in order with
the separator between documents and never before the first. -/
theorem C9_theorem (encode : K8sObject → Str) (fs : Fs) (f : YFile) :
    (f.objects = [] → fsLookup fs f.path = none → File.Dump encode fs f = fs) ∧
    (f.objects = [] → ∀ v, fsLookup fs f.path = some v →
        fsLookup (File.Dump encode fs f) f.path = none ∧
        ∀ q, q ≠ f.path → fsLookup (File.Dump encode fs f) q = fsLookup fs q) ∧
    (f.objects ≠ [] →
        fsLookup (File.Dump encode fs f) f.path =
          some (strIntercalate docSep
            (f.objects.map (fun o => encode (MarshalObject o))))) := by
  refine ⟨?_, ?_, ?_⟩
  · intro hobj hlook
    simp [File.Dump, hobj, hlook]
  · intro hobj v hlook
    refine ⟨?_, ?_⟩
    · simp [File.Dump, hobj, hlook, fsLookup_fsRemove_self]
    · intro q hq
      simp [File.Dump, hobj, hlook, fsLookup_fsRemove_other fs f.path q hq]
  · intro hobj
    rcases hos : f.objects with _ | ⟨o, os⟩
    · exact absurd hos hobj
    · simp [File.Dump, hos, fsWrite, fsLookup, renderLoop_eq_intercalate]

/-- Claim C9, witness: dumping an empty sequence over an empty tree is a
no-op. -/
theorem C9_witness :
    File.Dump (fun o => o.meta.name) [] ⟨"a.yaml".toList, []⟩ = [] :=
  (C9_theorem (fun o => o.meta.name) [] ⟨"a.yaml".toList, []⟩).1 rfl rfl

/-- `splitOnSlash` never returns the empty list. -/
theorem splitOnSlash_ne_nil (s : Str) : splitOnSlash s ≠ [] := by
  induction s with
  | nil => simp [splitOnSlash]
  | cons c rest ih =>
    simp only [splitOnSlash]
    split
    · simp
    · cases h : splitOnSlash rest <;> simp

/-- Splitting a slash-led string peels one empty chunk. -/
theorem splitOnSlash_cons_slash (t : Str) :
    splitOnSlash ('/' :: t) = [] :: splitOnSlash t := by
  simp [splitOnSlash]

/-- A slash-free string is a single chunk. -/
theorem splitOnSlash_noSlash (s : Str) (h : '/' ∉ s) : splitOnSlash s = [s] := by
  induction s with
  | nil => rfl
  | cons c rest ih =>
    have hc : c ≠ '/' := by
      rintro rfl
      exact h (List.mem_cons_self _ _)
    have hr : '/' ∉ rest := fun hm => h (List.mem_cons_of_mem _ hm)
    simp [splitOnSlash, hc, ih hr]

/-- Splitting after a slash-free chunk and a separator recurses. -/
theorem splitOnSlash_append (s t : Str) (h : '/' ∉ s) :
    splitOnSlash (s ++ '/' :: t) = s :: splitOnSlash t := by
  induction s with
  | nil => simp [splitOnSlash]
  | cons c rest ih =>
    have hc : c ≠ '/' := by
      rintro rfl
      exact h (List.mem_cons_self _ _)
    have hr := ih (fun hm => h (List.mem_cons_of_mem _ hm))
    simp only [List.cons_append, splitOnSlash, if_neg hc, List.append_eq]
    rw [hr]

/-- `joinSlash` over a cons with a nonempty tail. -/
theorem joinSlash_cons (s : Str) (l : List Str) (hl : l ≠ []) :
    joinSlash (s :: l) = s ++ '/' :: joinSlash l := by
  cases l with
  | nil => cases hl rfl
  | cons t rest => rfl

/-- `splitOnSlash` inverts `joinSlash` on nonempty lists of slash-free
components. -/
theorem splitOnSlash_joinSlash (l : List Str) (hl : l ≠ [])
    (h : ∀ c ∈ l, '/' ∉ c) :
    splitOnSlash (joinSlash l) = l := by
  induction l with
  | nil => cases hl rfl
  | cons s rest ih =>
    cases rest with
    | nil => exact splitOnSlash_noSlash s (h s (List.mem_cons_self _ _))
    | cons t r =>
      rw [joinSlash_cons s (t :: r) (by simp),
        splitOnSlash_append _ _ (h s (List.mem_cons_self _ _)),
        ih (by simp) (fun c hc => h c (List.mem_cons_of_mem _ hc))]

/-- Splitting a pointer path yields the leading empty chunk and the
components. -/
theorem splitOnSlash_ptrPath (p : List Str) (hp : p ≠ [])
    (h : ∀ c ∈ p, '/' ∉ c) :
    splitOnSlash (ptrPath p) = [] :: p := by
  unfold ptrPath
  rw [splitOnSlash_cons_slash, splitOnSlash_joinSlash p hp h]

/-- Pointer paths with well-formed components are uniquely readable. -/
theorem ptrPath_inj (p q : List Str) (hp : p ≠ []) (hq : q ≠ [])
    (hgp : ∀ c ∈ p, GoodComp c) (hgq : ∀ c ∈ q, GoodComp c) :
    ptrPath p = ptrPath q ↔ p = q := by
  constructor
  · intro h
    have h2 := congrArg splitOnSlash h
    rw [splitOnSlash_ptrPath p hp (fun c hc => (hgp c hc).2.2.2),
      splitOnSlash_ptrPath q hq (fun c hc => (hgq c hc).2.2.2)] at h2
    exact List.cons.inj h2 |>.2
  · rintro rfl
    rfl

/-- `cleanPush` keeps every well-formed component. -/
theorem cleanPush_good (rooted : Bool) (s : List Str) (c : Str)
    (hc : GoodComp c) : cleanPush rooted s c = c :: s := by
  unfold cleanPush
  rw [if_neg, if_neg hc.2.2.1]
  rintro (h | h)
  · exact hc.1 h
  · exact hc.2.1 h

/-- Folding `cleanPush` over well-formed components stacks them in
reverse. -/
theorem foldl_cleanPush (rooted : Bool) (cs : List Str)
    (h : ∀ c ∈ cs, GoodComp c) (s : List Str) :
    cs.foldl (cleanPush rooted) s = cs.reverse ++ s := by
  induction cs generalizing s with
  | nil => simp
  | cons c rest ih =>
    rw [List.foldl_cons, cleanPush_good rooted s c (h c (List.mem_cons_self _ _)),
      ih (fun x hx => h x (List.mem_cons_of_mem _ hx)) (c :: s)]
    simp

/-- `Clean` fixes pointer paths with well-formed components. -/
theorem goClean_ptrPath (p : List Str) (hp : p ≠ [])
    (h : ∀ c ∈ p, GoodComp c) :
    goClean (ptrPath p) = ptrPath p := by
  unfold goClean
  rw [if_neg (by simp [ptrPath])]
  have hroot : (ptrPath p).head? = some '/' := rfl
  rw [hroot, splitOnSlash_ptrPath p hp (fun c hc => (h c hc).2.2.2)]
  simp only [List.foldl_cons]
  have h0 : ∀ b : Bool, cleanPush b [] [] = [] := fun b => rfl
  simp only [h0]
  rw [foldl_cleanPush _ p h []]
  simp [ptrPath]

/-- `dropCommon` removes a shared prefix and leaves remainders that are
empty or start with different components. -/
theorem dropCommon_spec (p q : List Str) :
    ∃ c, p = c ++ (dropCommon p q).1 ∧ q = c ++ (dropCommon p q).2 ∧
      ((dropCommon p q).1 = [] ∨ (dropCommon p q).2 = [] ∨
        (dropCommon p q).1.head? ≠ (dropCommon p q).2.head?) := by
  induction p generalizing q with
  | nil =>
    refine ⟨[], ?_, ?_, Or.inl ?_⟩ <;> simp [dropCommon]
  | cons a as ih =>
    cases q with
    | nil =>
      refine ⟨[], ?_, ?_, Or.inr (Or.inl ?_)⟩ <;> simp [dropCommon]
    | cons b bs =>
      by_cases hab : a = b
      · subst hab
        obtain ⟨c, h1, h2, h3⟩ := ih bs
        have hd : dropCommon (a :: as) (a :: bs) = dropCommon as bs := by
          simp [dropCommon]
        refine ⟨a :: c, ?_, ?_, ?_⟩ <;> rw [hd]
        · rw [List.cons_append, ← h1]
        · rw [List.cons_append, ← h2]
        · exact h3
      · have hd : dropCommon (a :: as) (b :: bs) = (a :: as, b :: bs) := by
          simp [dropCommon, hab]
        refine ⟨[], by simp [hd], by simp [hd], Or.inr (Or.inr ?_)⟩
        rw [hd]
        simp [hab]

/-- The chunk list of a pointer path. -/
theorem relComps_ptrPath (p : List Str) (hp : p ≠ [])
    (h : ∀ c ∈ p, GoodComp c) :
    relComps (ptrPath p) = [] :: p := by
  unfold relComps
  rw [if_neg (by simp [ptrPath]), splitOnSlash_ptrPath p hp
    (fun c hc => (h c hc).2.2.2)]

/-- Normal form of `Rel` on two distinct pointer paths with well-formed
components: drop the common component prefix; if base is exhausted the
result is the remaining target components; otherwise one `..` per
remaining base component, with the remaining target components appended
when there are any. -/
theorem goRel_ptrPath (p q : List Str) (hp : p ≠ []) (hq : q ≠ [])
    (hgp : ∀ c ∈ p, GoodComp c) (hgq : ∀ c ∈ q, GoodComp c) (hne : p ≠ q) :
    goRel (ptrPath p) (ptrPath q) =
      (if (dropCommon p q).1 = [] then some (joinSlash (dropCommon p q).2)
       else if (dropCommon p q).2 = [] then
         some (joinSlash ((dropCommon p q).1.map (fun _ => ['.', '.'])))
       else some (joinSlash ((dropCommon p q).1.map (fun _ => ['.', '.'])) ++
         '/' :: joinSlash (dropCommon p q).2)) := by
  have e1 : goClean (ptrPath p) = ptrPath p := goClean_ptrPath p hp hgp
  have e2 : goClean (ptrPath q) = ptrPath q := goClean_ptrPath q hq hgq
  have hne2 : ¬(ptrPath q = ptrPath p) := fun hcon =>
    hne (((ptrPath_inj q p hq hp hgq hgp).mp hcon).symm)
  have hdot : ¬(ptrPath p = ['.']) := by
    unfold ptrPath
    intro hcon
    injection hcon with h1 _
    exact absurd h1 (by decide)
  have e3 : relComps (ptrPath p) = [] :: p := relComps_ptrPath p hp hgp
  have e4 : relComps (ptrPath q) = [] :: q := relComps_ptrPath q hq hgq
  have e5 : dropCommon ([] :: p) ([] :: q) = dropCommon p q := by
    simp [dropCommon]
  have hrem1 : normRem (dropCommon p q).1 = (dropCommon p q).1 := by
    unfold normRem
    rw [if_neg]
    intro hcon
    obtain ⟨c, h1, _, _⟩ := dropCommon_spec p q
    have hmem : ([] : Str) ∈ p := by
      rw [h1, hcon]
      simp
    exact (hgp [] hmem).1 rfl
  have hrem2 : normRem (dropCommon p q).2 = (dropCommon p q).2 := by
    unfold normRem
    rw [if_neg]
    intro hcon
    obtain ⟨c, _, h2, _⟩ := dropCommon_spec p q
    have hmem : ([] : Str) ∈ q := by
      rw [h2, hcon]
      simp
    exact (hgq [] hmem).1 rfl
  have hnodd : ¬((dropCommon p q).1.head? = some ['.', '.']) := by
    intro hcon
    obtain ⟨c, h1, _, _⟩ := dropCommon_spec p q
    cases hl : (dropCommon p q).1 with
    | nil => rw [hl] at hcon; cases hcon
    | cons x xs =>
      rw [hl] at hcon
      injection hcon with hx
      have hmem : ['.', '.'] ∈ p := by
        rw [h1, hl, ← hx]
        exact List.mem_append_right _ (List.mem_cons_self _ _)
      exact (hgp _ hmem).2.2.1 rfl
  unfold goRel
  simp only [e1, e2, e3, e4]
  rw [if_neg hne2, if_neg hdot]
  rw [if_neg (by simp [ptrPath])]
  rw [e3, e5, hrem1, hrem2, if_neg hnodd]

/-- A string starting with a well-formed component, followed by nothing
or by a separator, cannot start with `../`. -/
theorem ddslash_not_prefix_of_good (c : Str) (hc : GoodComp c) (r : Str)
    (hr : r = [] ∨ ∃ t, r = '/' :: t) :
    goHasPrefix ['.', '.', '/'] (c ++ r) = false := by
  unfold goHasPrefix
  rw [Bool.eq_false_iff]
  intro hpre
  have hp : ['.', '.', '/'] <+: c ++ r := List.isPrefixOf_iff_prefix.mp hpre
  obtain ⟨t0, ht⟩ := hp
  rcases c with _ | ⟨x, c1⟩
  · exact hc.1 rfl
  rcases c1 with _ | ⟨y, c2⟩
  · simp only [List.cons_append, List.nil_append] at ht
    obtain ⟨hx, hrest⟩ := List.cons.inj ht
    rcases hr with rfl | ⟨t1, rfl⟩
    · exact (List.cons_ne_nil _ _) hrest
    · obtain ⟨hdot, _⟩ := List.cons.inj hrest
      exact absurd hdot (by decide)
  rcases c2 with _ | ⟨z, c3⟩
  · simp only [List.cons_append, List.nil_append] at ht
    obtain ⟨hx, ht1⟩ := List.cons.inj ht
    obtain ⟨hy, _⟩ := List.cons.inj ht1
    exact hc.2.2.1 (by rw [← hx, ← hy])
  · simp only [List.cons_append] at ht
    obtain ⟨hx, ht1⟩ := List.cons.inj ht
    obtain ⟨hy, ht2⟩ := List.cons.inj ht1
    obtain ⟨hz, _⟩ := List.cons.inj ht2
    have hmem : '/' ∈ x :: y :: z :: c3 := by
      rw [hz]
      exact List.mem_cons_of_mem _ (List.mem_cons_of_mem _ (List.mem_cons_self _ _))
    exact hc.2.2.2 hmem

/-- The join of well-formed components does not start with `../`. -/
theorem not_ddslash_joinSlash (l : List Str) (hl : l ≠ [])
    (h : ∀ c ∈ l, GoodComp c) :
    goHasPrefix ['.', '.', '/'] (joinSlash l) = false := by
  rcases l with _ | ⟨c, rest⟩
  · cases hl rfl
  · have hc := h c (List.mem_cons_self _ _)
    rcases rest with _ | ⟨d, rest1⟩
    · have he : joinSlash [c] = c ++ [] := by simp [joinSlash]
      rw [he]
      exact ddslash_not_prefix_of_good c hc [] (Or.inl rfl)
    · rw [joinSlash_cons c (d :: rest1) (by simp)]
      exact ddslash_not_prefix_of_good c hc ('/' :: joinSlash (d :: rest1))
        (Or.inr ⟨_, rfl⟩)

/-- A string starting `../` is recognized by the prefix test. -/
theorem ddslash_prefix_cons (t : Str) :
    goHasPrefix ['.', '.', '/'] ('.' :: '.' :: '/' :: t) = true := by
  simp [goHasPrefix, List.isPrefixOf]

/-- Claim C1, counterexample: `/metadata` is a proper ancestor of the
filter path `/metadata/labels`, yet `PatchMatchesPath` reports a match,
contrary to the claim that proper ancestors fail. -/
theorem C1_counterexample :
    PatchMatchesPath "/metadata".toList "/metadata/labels".toList = some true ∧
    "/metadata/labels".toList = "/metadata".toList ++ "/labels".toList := by
  refine ⟨by decide, by decide⟩

/-- `dropCommon`, packaged with opaque remainders. -/
theorem dropCommon_eq_spec (p q : List Str) :
    ∃ c r1 r2, dropCommon p q = (r1, r2) ∧ p = c ++ r1 ∧ q = c ++ r2 ∧
      (r1 = [] ∨ r2 = [] ∨ r1.head? ≠ r2.head?) := by
  obtain ⟨c, h1, h2, h3⟩ := dropCommon_spec p q
  exact ⟨c, (dropCommon p q).1, (dropCommon p q).2, rfl, h1, h2, h3⟩

/-- Claim C1, amended: over well-formed pointer paths, the match
succeeds iff the patch path `Q` equals the filter path `P`, or `Q` is
lexically under `P`, or `Q` is the immediate parent of `P` (exactly one
component shorter); deeper ancestors and diverging paths fail.  Stated
over component lists: `P = ptrPath p`, `Q = ptrPath q`. -/
theorem C1_theorem (p q : List Str) (hp : p ≠ []) (hq : q ≠ [])
    (hgp : ∀ c ∈ p, GoodComp c) (hgq : ∀ c ∈ q, GoodComp c) :
    PatchMatchesPath (ptrPath q) (ptrPath p) = some true ↔
      (p <+: q ∨ (q <+: p ∧ p.length = q.length + 1)) := by
  by_cases heq : q = p
  · subst heq
    unfold PatchMatchesPath
    rw [if_pos rfl]
    exact iff_of_true rfl (Or.inl (List.prefix_refl q))
  · have hne : ¬(ptrPath q = ptrPath p) := fun hcon =>
      heq ((ptrPath_inj q p hq hp hgq hgp).mp hcon)
    have hpq : p ≠ q := fun hcon => heq hcon.symm
    unfold PatchMatchesPath
    rw [if_neg hne, goRel_ptrPath p q hp hq hgp hgq hpq]
    obtain ⟨c, r1, r2, hd, h1, h2, h3⟩ := dropCommon_eq_spec p q
    rw [hd]
    dsimp only
    have hgp2 : ∀ x ∈ r1, GoodComp x := fun x hx =>
      hgp x (by rw [h1]; exact List.mem_append_right _ hx)
    have hgq2 : ∀ x ∈ r2, GoodComp x := fun x hx =>
      hgq x (by rw [h2]; exact List.mem_append_right _ hx)
    by_cases hP : r1 = []
    · -- base exhausted: P is a proper prefix of Q
      subst hP
      have hQne : r2 ≠ [] := by
        intro hQz
        subst hQz
        exact hpq (h1.trans h2.symm)
      rw [if_pos rfl]
      dsimp only
      rw [not_ddslash_joinSlash r2 hQne hgq2]
      refine iff_of_true (by simp) (Or.inl ⟨r2, ?_⟩)
      rw [h1, h2]
      simp
    · by_cases hQ : r2 = []
      · -- target exhausted: Q is a strict ancestor of P
        subst hQ
        rw [if_neg hP, if_pos rfl]
        dsimp only
        rcases r1 with _ | ⟨a, p2⟩
        · exact absurd rfl hP
        rcases p2 with _ | ⟨b, p3⟩
        · -- exactly one component below Q: the immediate parent matches
          refine iff_of_true rfl (Or.inr ⟨⟨[a], ?_⟩, ?_⟩)
          · rw [h1, h2]
            simp
          · rw [h1, h2]
            simp
        · -- two or more components below Q: no match, and the claim fails
          have hjoin : joinSlash (List.map (fun _ => (['.', '.'] : Str))
              (a :: b :: p3)) =
              '.' :: '.' :: '/' :: joinSlash (List.map
                (fun _ => (['.', '.'] : Str)) (b :: p3)) := by
            simp only [List.map_cons]
            rw [joinSlash_cons _ _ (by simp)]
            exact rfl
          rw [hjoin, ddslash_prefix_cons, if_pos rfl]
          refine iff_of_false (by simp) ?_
          rintro (hpre | ⟨hpre, hlen⟩)
          · rw [h1, h2] at hpre
            have hcon : (a :: b :: p3) <+: [] :=
              (List.prefix_append_right_inj c).mp hpre
            simp at hcon
          · rw [h1, h2] at hlen
            simp [List.length_append] at hlen
      · -- both sides remain and start with different components
        have h4 : r1.head? ≠ r2.head? := (h3.resolve_left hP).resolve_left hQ
        rw [if_neg hP, if_neg hQ]
        dsimp only
        rcases r1 with _ | ⟨a, p2⟩
        · exact absurd rfl hP
        rcases r2 with _ | ⟨b2, q2⟩
        · exact absurd rfl hQ
        have hab : a ≠ b2 := by
          intro hcon
          apply h4
          rw [hcon]
          simp
        have hdots : ∃ t, joinSlash (List.map (fun _ => (['.', '.'] : Str))
            (a :: p2)) ++ '/' :: joinSlash (b2 :: q2) =
            '.' :: '.' :: '/' :: t := by
          rcases p2 with _ | ⟨b, p3⟩
          · exact ⟨joinSlash (b2 :: q2), rfl⟩
          · simp only [List.map_cons]
            rw [joinSlash_cons _ _ (by simp)]
            exact ⟨_, rfl⟩
        obtain ⟨t, ht⟩ := hdots
        rw [ht, ddslash_prefix_cons, if_pos rfl]
        refine iff_of_false (by simp) ?_
        rintro (hpre | ⟨hpre, _⟩)
        · rw [h1, h2] at hpre
          have hc2 := (List.prefix_append_right_inj c).mp hpre
          rw [List.cons_prefix_cons] at hc2
          exact hab hc2.1
        · rw [h1, h2] at hpre
          have hc2 := (List.prefix_append_right_inj c).mp hpre
          rw [List.cons_prefix_cons] at hc2
          exact hab hc2.1.symm

/-- Claim C1, witness: `/metadata` (the immediate parent) matches the
filter `/metadata/labels` through the amended characterization. -/
theorem C1_witness :
    PatchMatchesPath (ptrPath ["metadata".toList])
      (ptrPath ["metadata".toList, "labels".toList]) = some true :=
  ( C1_theorem ["metadata".toList, "labels".toList] ["metadata".toList]
    (by decide) (by decide) (by decide) (by decide)).mpr
    (Or.inr ⟨by decide, by decide⟩)
